import Mathlib

/-!
Shallow embedding of the mdBook outline parser and book assembler.

Part 1 embeds `mdbook-core/src/loader.rs`: the indentation meter (`level`),
the line classifier (`parse_line` / `read_link`) and the recursive outline
parser (`parse_level`).  The old loader's `BookItem` enum (from its `book`
module, whose source is not part of this tree) is reconstructed from its use
sites in `loader.rs`: `Chapter(String, Chapter)`, `Affix(Chapter)`, `Spacer`,
where a `Chapter` carries a name, a path and nested items.

Rust `i32` counters are modelled as `Int` (the section counters can hold the
`-1` back-matter sentinel); indentation levels, which never go negative, are
modelled as `Nat`.  The Rust `while`-loop of `parse_level` is modelled as a
fuel-indexed recursion whose `items` accumulator is the loop state; every
Rust-side `panic!`/`expect` is modelled as the distinguished error
`PErr.panic`.
-/

namespace MdBook

/-- Errors of the loader: `bail!` on indentation, `bail!` on structure
violations, Rust panics (`expect` / index out of bounds), and fuel
exhaustion of the modelled loop (never hit at the fuel used by theorems). -/
inductive PErr where
  | indentation
  | structureErr
  | panic
  | fuel
deriving DecidableEq, Repr

/-- The old loader's `BookItem` enum, reconstructed from its use sites in
`loader.rs`: a numbered chapter carries its rendered section string, a name,
a path and nested items; an affix (prefix/suffix) entry carries a chapter
without a number; a spacer is a separator line. -/
inductive LBookItem where
  | chapter (sec : String) (name : String) (path : String) (items : List LBookItem)
  | affix (name : String) (path : String) (items : List LBookItem)
  | spacer

/-- Characters trimmed by `trim_matches(|c| c == ' ' || c == '\t')`. -/
def isWs (c : Char) : Bool := c = ' ' || c = '\t'

/-- Rust `line.trim_matches(' ' | '\t')`, on the character list. -/
def trimLine (l : String) : List Char :=
  ((l.toList.dropWhile isWs).reverse.dropWhile isWs).reverse

/-- Rust `str::find(char)`: index of the first occurrence. -/
def findCh (c : Char) : List Char → Option Nat
  | [] => none
  | x :: rest => if x = c then some 0 else (findCh c rest).map (· + 1)

/-- Rust `str::find(&str)`: first index where `pat` occurs as a substring. -/
def findSub (pat : List Char) : List Char → Option Nat
  | [] => if pat = [] then some 0 else none
  | x :: rest =>
    if pat.isPrefixOf (x :: rest) then some 0
    else (findSub pat rest).map (· + 1)

/-- `read_link` from `loader.rs`: locate `[`, then `](` after it, then `)`
after that; the display name sits between `[` and `](`, the raw path between
`](` and `)`.  Returns `none` ("not a link, ignoring") when any delimiter is
missing. -/
def readLink (line : List Char) : Option (String × String) :=
  match findCh '[' line with
  | none => none
  | some s =>
    match findSub "](".toList (line.drop s) with
    | none => none
    | some i =>
      let e := s + i
      let name := String.mk ((line.drop (s + 1)).take (e - (s + 1)))
      let s2 := e + 1
      match findCh ')' (line.drop s2) with
      | none => none
      | some j =>
        let e2 := s2 + j
        let path := String.mk ((line.drop (s2 + 1)).take (e2 - (s2 + 1)))
        some (name, path)

/-- `parse_line` from `loader.rs`.  The trimmed line is classified: `--`
prefix is a spacer; `-`/`*` heads a list-style (numbered) chapter whose
section string is the placeholder `"0"`; `[` heads an affix entry; anything
else (including link-less list items) is not an item.  `Chapter::new`
(source not in this tree) is modelled from the spec as total construction of
a chapter from a display name and a target path, with no nested items. -/
def parseLine (l : String) : Option LBookItem :=
  let line := trimLine l
  if ['-', '-'].isPrefixOf line then some .spacer
  else
    match line.head? with
    | none => none
    | some c =>
      if c = '-' ∨ c = '*' then
        match readLink line with
        | some (name, path) => some (.chapter "0" name path [])
        | none => none
      else if c = '[' then
        match readLink line with
        | some (name, path) => some (.affix name path [])
        | none => none
      else none

/-- Loop body of `level` from `loader.rs`: scan leading characters, a space
bumps the `spaces` counter (reset to `0` with a level increment once it
reaches `w`), a tab bumps the level directly, any other character stops the
scan.  Returns the final `(spaces, level)` pair. -/
def levelLoop (w : Nat) : List Char → Nat → Nat → Nat × Nat
  | [], spaces, lvl => (spaces, lvl)
  | c :: rest, spaces, lvl =>
    if c = ' ' then
      let spaces := spaces + 1
      if w ≤ spaces then levelLoop w rest 0 (lvl + 1) else levelLoop w rest spaces lvl
    else if c = '\t' then
      let lvl := lvl + 1
      if w ≤ spaces then levelLoop w rest 0 (lvl + 1) else levelLoop w rest spaces lvl
    else (spaces, lvl)

/-- `level` from `loader.rs`: the indentation meter.  Fails with an
indentation error exactly when leftover spaces remain after the scan. -/
def level (line : String) (w : Nat) : Except PErr Nat :=
  let r := levelLoop w line.toList 0 0
  if r.1 > 0 then .error .indentation else .ok r.2

/-- Rust `section.iter().fold("", |s, i| s + i.to_string() + ".")`: the
dot-terminated rendering of a section counter path. -/
def render (sec : List Int) : String :=
  sec.foldl (fun s i => s ++ toString i ++ ".") ""

/-- Rust `section[section.len() - 1] += 1` (callers guarantee nonempty). -/
def incLast (sec : List Int) : List Int :=
  sec.dropLast ++ [sec.getLastD 0 + 1]

/-- `parse_level` from `loader.rs`, fuel-indexed; `items` is the state of
the Rust `while` loop's accumulator, and the returned pair carries the parsed
items together with the unconsumed lines (Rust mutates `summary` in place).
The spaces-per-level width is the hardcoded `4` of the source. -/
def parseLevel : Nat → List String → Nat → List Int → List LBookItem →
    Except PErr (List LBookItem × List String)
  | 0, _, _, _, _ => .error .fuel
  | _ + 1, [], _, _, items => .ok (items, [])
  | fuel + 1, line :: rest, cur, sec, items =>
    match level line 4 with
    | .error e => .error e
    | .ok lvl =>
      if lvl < cur then .ok (items, line :: rest)
      else if lvl > cur then
        -- `items.pop().expect(..)`: a panic when the loop has no previous item
        match items.getLast? with
        | none => .error .panic
        | some (.chapter s n p _) =>
          match parseLevel fuel (line :: rest) lvl (sec ++ [0]) [] with
          | .error e => .error e
          | .ok (children, rest') =>
            parseLevel fuel rest' cur sec
              (items.dropLast ++ [.chapter s n p children])
        | some _ => .error .structureErr
      else
        match parseLine line with
        | none => parseLevel fuel rest cur sec items
        | some .spacer =>
          if cur > 0 then .error .structureErr
          else parseLevel fuel rest cur sec (items ++ [.spacer])
        | some (.affix n p its) =>
          if cur > 0 then .error .structureErr
          else
            match sec with
            | [] => .error .panic  -- `section[0]` read panics on an empty vec
            | s0 :: srest =>
              let sec' := if s0 > 0 then -1 :: srest else s0 :: srest
              parseLevel fuel rest cur sec' (items ++ [.affix n p its])
        | some (.chapter _ n p its) =>
          match sec with
          | [] => .error .panic  -- `section[0]` read panics on an empty vec
          | s0 :: srest =>
            if s0 = -1 then .error .structureErr
            else
              let sec2 := incLast (s0 :: srest)
              parseLevel fuel rest cur sec2
                (items ++ [.chapter (render sec2) n p its])

/-!
Part 2 embeds `src/book/book.rs`: the `Book`/`BookItem`/`Chapter` data
model, the depth-first iterator `BookItems::next`, the mutating visitor
`for_each_mut`, the resolver `load_book_from_disk`/`load_summary_item`/
`load_chapter`, and the missing-content pass `create_missing`.

Paths (`PathBuf`) are modelled as an absolute-flag plus a component list;
the filesystem is an association list from paths to file contents, read
through `fsRead`.  The `Summary`/`SummaryItem`/`Link` shapes come from
`book.rs`'s use sites (their defining module `summary.rs` is not part of
this tree); the `Link` payload is inlined into `SummaryItem.link`.
-/

/-- Model of Rust `PathBuf`: an absolute-path flag and the components. -/
structure MPath where
  absolute : Bool
  comps : List String
deriving DecidableEq

/-- Rust `Path::join` (used with a base directory): an absolute argument
replaces the base, a relative one is appended to it. -/
def joinP (d p : MPath) : MPath :=
  if p.absolute then p else ⟨d.absolute, d.comps ++ p.comps⟩

/-- Rust `Path::strip_prefix`: drop `d` from the front of `p`, giving a
relative path; fails when `d` is not a prefix of `p`. -/
def stripPre (d p : MPath) : Option MPath :=
  if d.absolute = p.absolute ∧ d.comps.isPrefixOf p.comps then
    some ⟨false, p.comps.drop d.comps.length⟩
  else none

/-- The content source: an association list from paths to file contents. -/
abbrev FS := List (MPath × String)

/-- Read a file from the modelled content source. -/
def fsRead : FS → MPath → Option String
  | [], _ => none
  | (q, c) :: rest, p => if q = p then some c else fsRead rest p

/-- Modelled from the spec (the defining module `summary.rs` is not in this
tree; the shape is fixed by its use sites in `book.rs`): an outline item is
a separator or a link carrying a display name, a target location, an
optional pre-assigned section number and nested child items. -/
inductive SummaryItem where
  | separator
  | link (name : String) (location : MPath) (number : Option (List Nat))
         (nested : List SummaryItem)

/-- Modelled from the spec (the defining module `summary.rs` is not in this
tree): the parsed outline groups its items into front-matter, numbered and
back-matter sequences. -/
structure Summary where
  prefixChapters : List SummaryItem := []
  numberedChapters : List SummaryItem := []
  suffixChapters : List SummaryItem := []

/-- `BookItem` from `book.rs`, with the `Chapter` and `VirtualChapter`
struct fields inlined into the constructors. -/
inductive BookItem where
  | chapter (name content : String) (number : Option (List Nat))
            (subItems : List BookItem) (path : MPath) (parentNames : List String)
  | virtualChapter (name content : String) (number : Option (List Nat))
                   (subItems : List BookItem)
  | separator

/-- `Book` from `book.rs`: an ordered sequence of book items. -/
structure Book where
  sections : List BookItem

/-- Errors of resolution: `ContentNotFound` for an unreadable target, and
the modelled panic of the `strip_prefix(..).expect(..)` call. -/
inductive LoadErr where
  | contentNotFound
  | panic
deriving DecidableEq, Repr

/-- The body of `load_book_from_disk`'s loop, with `load_summary_item` and
`load_chapter` inlined at the `link` case: a separator maps to a separator;
a link's target is joined to the source directory (absolute targets are
used verbatim), read from the content source (failing with
`ContentNotFound`), stripped back to a root-relative path (the Rust
`.expect("Chapters are always inside a book")` is the modelled panic), and
its nested items are resolved with the parent-name chain extended by the
link's own name. -/
def loadItems (fs : FS) (srcDir : MPath) :
    List SummaryItem → List String → Except LoadErr (List BookItem)
  | [], _ => .ok []
  | .separator :: rest, parents =>
    match loadItems fs srcDir rest parents with
    | .error e => .error e
    | .ok bs => .ok (.separator :: bs)
  | .link name loc num nested :: rest, parents =>
    let location := if loc.absolute then loc else joinP srcDir loc
    match fsRead fs location with
    | none => .error .contentNotFound
    | some content =>
      match stripPre srcDir location with
      | none => .error .panic
      | some stripped =>
        match loadItems fs srcDir nested (parents ++ [name]) with
        | .error e => .error e
        | .ok subs =>
          match loadItems fs srcDir rest parents with
          | .error e => .error e
          | .ok bs => .ok (.chapter name content num subs stripped parents :: bs)

/-- `load_book_from_disk` from `book.rs`: resolve the front-matter, numbered
and back-matter items, in that order, into the book's top-level sections. -/
def loadBookFromDisk (summary : Summary) (srcDir : MPath) (fs : FS) :
    Except LoadErr Book :=
  match loadItems fs srcDir
      (summary.prefixChapters ++ summary.numberedChapters ++ summary.suffixChapters) [] with
  | .error e => .error e
  | .ok secs => .ok ⟨secs⟩

/-- Total number of summary items in a worklist, counting nested items. -/
def sizeSI : List SummaryItem → Nat
  | [] => 0
  | .separator :: rest => 1 + sizeSI rest
  | .link _ _ _ nested :: rest => 1 + sizeSI nested + sizeSI rest

theorem sizeSI_append (a b : List SummaryItem) :
    sizeSI (a ++ b) = sizeSI a + sizeSI b := by
  induction a with
  | nil => simp [sizeSI]
  | cons x rest ih => cases x <;> simp [sizeSI, ih] <;> omega

theorem sizeSI_reverse (a : List SummaryItem) : sizeSI a.reverse = sizeSI a := by
  induction a with
  | nil => rfl
  | cons x rest ih =>
    cases x <;> simp [sizeSI, List.reverse_cons, sizeSI_append, ih] <;> omega

/-- The worklist loop of `create_missing` from `book.rs`: pop the top item;
for a link whose joined target does not exist, create it with the stub body
`# <name>`; then push the link's nested items.  The Lean list's head is the
Rust vector's popping end, so `extend(&link.nested_items)` pushes the
reversed nested items on the front. -/
def createMissingGo (srcDir : MPath) (fs : FS) : List SummaryItem → FS
  | [] => fs
  | .separator :: stack => createMissingGo srcDir fs stack
  | .link name loc _ nested :: stack =>
    let filename := joinP srcDir loc
    let fs' := if (fsRead fs filename).isSome then fs
               else (filename, "# " ++ name ++ "\n") :: fs
    createMissingGo srcDir fs' (nested.reverse ++ stack)
termination_by stack => sizeSI stack
decreasing_by
  · simp [sizeSI]
  · simp [sizeSI, sizeSI_append, sizeSI_reverse]

/-- `create_missing` from `book.rs`: seed the worklist with the three item
groups (the Rust vector pops from its far end, hence the reversal). -/
def createMissing (srcDir : MPath) (summary : Summary) (fs : FS) : FS :=
  createMissingGo srcDir fs
    ((summary.prefixChapters ++ summary.numberedChapters ++ summary.suffixChapters).reverse)

/-- Number of book items the traversals reach: virtual-chapter children are
not descended into (`BookItems::next` and `for_each_mut` only destructure
`Chapter`). -/
def reachSizeL : List BookItem → Nat
  | [] => 0
  | .chapter _ _ _ subs _ _ :: rest => 1 + reachSizeL subs + reachSizeL rest
  | _ :: rest => 1 + reachSizeL rest

/-- Total number of book items in a tree, including those nested inside a
`VirtualChapter`'s `sub_items`. -/
def totalSizeL : List BookItem → Nat
  | [] => 0
  | .chapter _ _ _ subs _ _ :: rest => 1 + totalSizeL subs + totalSizeL rest
  | .virtualChapter _ _ _ subs :: rest => 1 + totalSizeL subs + totalSizeL rest
  | .separator :: rest => 1 + totalSizeL rest

/-- `BookItems::next` from `book.rs`: pop the queue's front; when the item
is a chapter, push its sub-items on the front (the Rust source pushes them
one by one in reverse, which prepends them in order). -/
def bookIterNext (q : List BookItem) : Option (BookItem × List BookItem) :=
  match q with
  | [] => none
  | i :: rest =>
    match i with
    | .chapter n c num subs p pn => some (.chapter n c num subs p pn, subs ++ rest)
    | x => some (x, rest)

theorem reachSizeL_append (a b : List BookItem) :
    reachSizeL (a ++ b) = reachSizeL a + reachSizeL b := by
  induction a with
  | nil => simp [reachSizeL]
  | cons x rest ih => cases x <;> simp [reachSizeL, ih] <;> omega

theorem bookIterNext_size {q : List BookItem} {i : BookItem} {q' : List BookItem}
    (h : bookIterNext q = some (i, q')) : reachSizeL q' < reachSizeL q := by
  match q with
  | [] => simp [bookIterNext] at h
  | x :: rest =>
    cases x <;> simp only [bookIterNext, Option.some.injEq, Prod.mk.injEq] at h <;>
      rcases h with ⟨h1, h2⟩ <;> subst h2 <;>
      simp only [reachSizeL, reachSizeL_append] <;> omega

/-- The sequence produced by exhausting the iterator: repeatedly apply
`bookIterNext` from a queue seeded with the book's sections. -/
def iterRun (q : List BookItem) : List BookItem :=
  match h : bookIterNext q with
  | none => []
  | some (i, q') => i :: iterRun q'
termination_by reachSizeL q
decreasing_by exact bookIterNext_size h

/-- `Book::iter` collected into a list. -/
def bookIter (b : Book) : List BookItem := iterRun b.sections

/-- The specification's depth-first order, written from its words: each item
is followed first by its chapter children, then by its following siblings;
only `Chapter` items contribute children. -/
def preorderSpec : List BookItem → List BookItem
  | [] => []
  | .chapter n c num subs p pn :: rest =>
    .chapter n c num subs p pn :: (preorderSpec subs ++ preorderSpec rest)
  | x :: rest => x :: preorderSpec rest

/-- `for_each_mut` from `book.rs`, as a pure state transformer that also
records the trace of arguments passed to the callback: for each item, first
recurse into a chapter's `sub_items`, then invoke the callback on the item
(whose children have already been rewritten). -/
def forEachMutTrace (f : BookItem → BookItem) :
    List BookItem → List BookItem × List BookItem
  | [] => ([], [])
  | .chapter n c num subs p pn :: rest =>
    let r1 := forEachMutTrace f subs
    let arg := BookItem.chapter n c num r1.1 p pn
    let r2 := forEachMutTrace f rest
    (f arg :: r2.1, r1.2 ++ arg :: r2.2)
  | x :: rest =>
    let r2 := forEachMutTrace f rest
    (f x :: r2.1, x :: r2.2)

/-!
Part 3: observables and invariant predicates the claims are stated with.
-/

/-- Leading-whitespace census of a line: the number of tabs and the number
of spaces occurring before the first character that is neither. -/
def leadWS : List Char → Nat × Nat
  | [] => (0, 0)
  | c :: rest =>
    if c = ' ' then ((leadWS rest).1, (leadWS rest).2 + 1)
    else if c = '\t' then ((leadWS rest).1 + 1, (leadWS rest).2)
    else (0, 0)

/-- Depth-first (number, name) pairs of the numbered chapters of an
old-loader tree. -/
def ldfs : List LBookItem → List (String × String)
  | [] => []
  | .chapter s n _ its :: rest => (s, n) :: (ldfs its ++ ldfs rest)
  | _ :: rest => ldfs rest

/-- Whether an old-loader item is a numbered chapter. -/
def isChap : LBookItem → Bool
  | .chapter _ _ _ _ => true
  | _ => false

/-- Number of top-level numbered chapters in an item list. -/
def nchap (items : List LBookItem) : Nat := (items.filter isChap).length

/-- Section-numbering invariant: under the counter path `pre`, with `k`
chapters already seen at this level, the numbered chapters of the list
carry, in order, the strings `render (pre ++ [k+1])`, `render (pre ++
[k+2])`, … — the parent's number extended by one strictly increasing final
component — and each chapter's children satisfy the same invariant under
its own extended path. -/
def goodb (pre : List Int) (k : Int) : List LBookItem → Bool
  | [] => true
  | .chapter s _ _ its :: rest =>
    (s = render (pre ++ [k + 1]) : Bool)
      && goodb (pre ++ [k + 1]) 0 its && goodb pre (k + 1) rest
  | .affix _ _ _ :: rest => goodb pre k rest
  | .spacer :: rest => goodb pre k rest

/-- Scan state of the front/numbered/back-matter ordering: `seen` records
whether a numbered chapter has appeared, `closed` whether an affix entry
has appeared after one (the back-matter transition). -/
def nabSt (seen closed : Bool) : List LBookItem → Bool × Bool
  | [] => (seen, closed)
  | .chapter _ _ _ _ :: rest => nabSt true closed rest
  | .affix _ _ _ :: rest => nabSt seen (closed || seen) rest
  | .spacer :: rest => nabSt seen closed rest

/-- Ordering invariant scan: no numbered chapter may appear once the
back-matter transition has happened. -/
def nab (seen closed : Bool) : List LBookItem → Bool
  | [] => true
  | .chapter _ _ _ _ :: rest => !closed && nab true closed rest
  | .affix _ _ _ :: rest => nab seen (closed || seen) rest
  | .spacer :: rest => nab seen closed rest

/-- Every link target of a summary-item worklist, joined to the source
directory, nested items included. -/
def targetsOf (d : MPath) : List SummaryItem → List MPath
  | [] => []
  | .separator :: rest => targetsOf d rest
  | .link _ loc _ nested :: rest =>
    joinP d loc :: (targetsOf d nested ++ targetsOf d rest)

/-- Resolvability of a summary-item list against a content source: every
link target (absolute ones verbatim, relative ones joined to the content
root) is readable and lies under the content root, recursively. -/
def resolvableb (fs : FS) (srcDir : MPath) : List SummaryItem → Bool
  | [] => true
  | .separator :: rest => resolvableb fs srcDir rest
  | .link _ loc _ nested :: rest =>
    (fsRead fs (if loc.absolute then loc else joinP srcDir loc)).isSome
      && (stripPre srcDir (if loc.absolute then loc else joinP srcDir loc)).isSome
      && resolvableb fs srcDir nested && resolvableb fs srcDir rest

/-- Shape correspondence between a top-level outline item and the book item
it resolves to: a separator maps to a separator, a link to a chapter with
the link's display name and pre-assigned number. -/
def itemMatch : SummaryItem → BookItem → Prop
  | .separator, .separator => True
  | .link n _ num _, .chapter n' _ num' _ _ _ => n' = n ∧ num' = num
  | _, _ => False

/-!
Part 4: the claim theorems.
-/

/-- C3 (counterexample): the outline of the claim, with two-space
indentation before the second entry, does not parse at the default
four-space width — the indentation meter rejects the two leftover spaces —
so the parse fails with an `IndentationError` instead of producing the
claimed book. -/
theorem claim_c3_counterexample :
    parseLevel 10 ["- [A](a.md)", "  - [B](b.md)", "- [C](c.md)"] 0 [0] [] =
      .error .indentation := by rfl

/-- C3 (amended): with the nested entry indented by one full four-space
unit, parsing succeeds, consumes all lines, and the depth-first numbered
chapters are exactly A, B, C with section numbers "1.", "1.1.", "2.". -/
theorem claim_c3_amended :
    parseLevel 10 ["- [A](a.md)", "    - [B](b.md)", "- [C](c.md)"] 0 [0] [] =
        .ok ([.chapter "1." "A" "a.md" [.chapter "1.1." "B" "b.md" []],
              .chapter "2." "C" "c.md" []], []) ∧
      ldfs [.chapter "1." "A" "a.md" [.chapter "1.1." "B" "b.md" []],
            .chapter "2." "C" "c.md" []] =
        [("1.", "A"), ("1.1.", "B"), ("2.", "C")] :=
  ⟨by rfl, by simp [ldfs]⟩

/-- C6 (code bug): when a line is indented deeper than the current level and
there is no preceding item at all — here the very first line of the outline
is indented one level — the source runs `items.pop().expect(..)` on an empty
vector and panics, instead of failing with the `StructureError` the claim
and the spec prescribe. -/
theorem claim_c6_panic_on_indented_first_line :
    parseLevel 10 ["\t- [A](a.md)"] 0 [0] [] = .error .panic := by rfl

/-- C9 (counterexample): a line in which `[`, `](`, `)` cannot all be found
in that order is not always classified "not an item": a line whose trimmed
content starts with two dashes is classified as a spacer. -/
theorem claim_c9_counterexample : parseLine "--" = some .spacer := by rfl

/-- C9 (amended): for every line that is not a separator line (its trimmed
content does not start with two dashes) and in which `[`, `](`, `)` cannot
all be found in that order, the classifier returns "not an item"; and if
such a line's indentation is valid and matches the current level, the
parser silently removes it and continues, producing no error. -/
theorem claim_c9_amended (l : String) (rest : List String) (cur : Nat)
    (sec : List Int) (items : List LBookItem) (fuel : Nat)
    (hsep : ['-', '-'].isPrefixOf (trimLine l) = false)
    (hlink : readLink (trimLine l) = none) :
    parseLine l = none ∧
      (level l 4 = .ok cur →
        parseLevel (fuel + 1) (l :: rest) cur sec items =
          parseLevel fuel rest cur sec items) := by
  have hpl : parseLine l = none := by
    simp only [parseLine, hsep, Bool.false_eq_true, if_false]
    cases hh : (trimLine l).head? <;> simp [hlink]
  refine ⟨hpl, fun hlv => ?_⟩
  conv_lhs => rw [parseLevel]
  rw [hlv]
  simp [lt_irrefl, hpl]

/-- C9 (witness): the amended theorem applied to the prose-ish list line
`- hello`, which has no link brackets: it is classified "not an item" and
is skipped by the parser at root level. -/
theorem claim_c9_witness :
    parseLine "- hello" = none ∧
      parseLevel 4 ["- hello"] 0 [0] [] = parseLevel 3 [] 0 [0] [] :=
  ⟨(claim_c9_amended "- hello" [] 0 [0] [] 3 (by rfl) (by rfl)).1,
   (claim_c9_amended "- hello" [] 0 [0] [] 3 (by rfl) (by rfl)).2 (by rfl)⟩

theorem levelLoop_spec (w : Nat) (hw : 0 < w) (cs : List Char) :
    ∀ s0 l0 : Nat, s0 < w →
      levelLoop w cs s0 l0 =
        ((s0 + (leadWS cs).2) % w, l0 + (leadWS cs).1 + (s0 + (leadWS cs).2) / w) := by
  induction cs with
  | nil =>
    intro s0 l0 hs
    simp [levelLoop, leadWS, Nat.mod_eq_of_lt hs, Nat.div_eq_of_lt hs]
  | cons c rest ih =>
    intro s0 l0 hs
    by_cases hsp : c = ' '
    · subst hsp
      rw [show levelLoop w (' ' :: rest) s0 l0 =
            (if w ≤ s0 + 1 then levelLoop w rest 0 (l0 + 1)
             else levelLoop w rest (s0 + 1) l0) from rfl,
          show leadWS (' ' :: rest) = ((leadWS rest).1, (leadWS rest).2 + 1) from rfl]
      by_cases hw2 : w ≤ s0 + 1
      · rw [if_pos hw2, ih 0 (l0 + 1) hw]
        have h1 : s0 + ((leadWS rest).2 + 1) = (leadWS rest).2 + w := by omega
        rw [Nat.zero_add, h1, Nat.add_mod_right, Nat.add_div_right _ hw]
        exact congrArg₂ Prod.mk rfl (by ring)
      · rw [if_neg hw2, ih (s0 + 1) l0 (by omega)]
        have h1 : s0 + 1 + (leadWS rest).2 = s0 + ((leadWS rest).2 + 1) := by omega
        rw [h1]
    · by_cases htb : c = '\t'
      · subst htb
        rw [show levelLoop w ('\t' :: rest) s0 l0 =
              (if w ≤ s0 then levelLoop w rest 0 (l0 + 1 + 1)
               else levelLoop w rest s0 (l0 + 1)) from rfl,
            show leadWS ('\t' :: rest) = ((leadWS rest).1 + 1, (leadWS rest).2) from rfl]
        rw [if_neg (by omega : ¬ w ≤ s0), ih s0 (l0 + 1) hs]
        exact congrArg₂ Prod.mk rfl (by ring)
      · simp only [levelLoop, leadWS, if_neg hsp, if_neg htb]
        simp [Nat.mod_eq_of_lt hs, Nat.div_eq_of_lt hs]

/-- C5: for every line and every positive spaces-per-level width, the
indentation meter computes level = (number of leading tabs) + (total number
of leading spaces, accumulated in one counter across the whole leading
whitespace prefix) divided by the width, and fails with an
`IndentationError` exactly when leftover spaces remain — that is, when the
total leading-space count is not a multiple of the width. -/
theorem claim_c5 (line : String) (w : Nat) (hw : 0 < w) :
    level line w =
      if (leadWS line.toList).2 % w = 0 then
        .ok ((leadWS line.toList).1 + (leadWS line.toList).2 / w)
      else .error .indentation := by
  unfold level
  rw [levelLoop_spec w hw line.toList 0 0 hw]
  simp only [Nat.zero_add]
  split_ifs with h1 h2 <;> first | rfl | omega

/-- C5 (witness): a line with three leading spaces at width four fails with
an indentation error, via the meter formula. -/
theorem claim_c5_witness : level "   x" 4 = .error .indentation :=
  (claim_c5 "   x" 4 (by decide)).trans (by rfl)

theorem preorderSpec_append (a b : List BookItem) :
    preorderSpec (a ++ b) = preorderSpec a ++ preorderSpec b := by
  induction a with
  | nil => simp [preorderSpec]
  | cons x rest ih => cases x <;> simp [preorderSpec, ih]

theorem bookIterNext_eq_none {q : List BookItem} (h : bookIterNext q = none) :
    q = [] := by
  match q with
  | [] => rfl
  | x :: rest => cases x <;> simp [bookIterNext] at h

theorem iterRun_eq_preorder (q : List BookItem) : iterRun q = preorderSpec q := by
  induction q using iterRun.induct with
  | case1 q hnone =>
    obtain rfl := bookIterNext_eq_none hnone
    rw [iterRun]
    simp [bookIterNext, preorderSpec]
  | case2 q i q' hsome ih =>
    rw [iterRun, hsome]
    match q, hsome with
    | x :: rest, hsome =>
      cases x <;> simp only [bookIterNext, Option.some.injEq, Prod.mk.injEq] at hsome <;>
        rcases hsome with ⟨h1, h2⟩ <;> subst h1 <;> subst h2 <;>
        simp [preorderSpec, preorderSpec_append, ih]

theorem preorderSpec_length :
    ∀ q : List BookItem, (preorderSpec q).length = reachSizeL q
  | [] => by simp [preorderSpec, reachSizeL]
  | .chapter n c num subs p pn :: rest => by
    have h1 := preorderSpec_length subs
    have h2 := preorderSpec_length rest
    simp [preorderSpec, reachSizeL, h1, h2]; try omega
  | .virtualChapter n c num subs :: rest => by
    have h2 := preorderSpec_length rest
    simp [preorderSpec, reachSizeL, h2]; try omega
  | .separator :: rest => by
    have h2 := preorderSpec_length rest
    simp [preorderSpec, reachSizeL, h2]; try omega
termination_by q => reachSizeL q
decreasing_by all_goals (simp [reachSizeL]; try omega)

theorem forEachMutTrace_length (f : BookItem → BookItem) :
    ∀ q : List BookItem, (forEachMutTrace f q).2.length = reachSizeL q
  | [] => by simp [forEachMutTrace, reachSizeL]
  | .chapter n c num subs p pn :: rest => by
    have h1 := forEachMutTrace_length f subs
    have h2 := forEachMutTrace_length f rest
    simp [forEachMutTrace, reachSizeL, h1, h2]; try omega
  | .virtualChapter n c num subs :: rest => by
    have h2 := forEachMutTrace_length f rest
    simp [forEachMutTrace, reachSizeL, h2]; try omega
  | .separator :: rest => by
    have h2 := forEachMutTrace_length f rest
    simp [forEachMutTrace, reachSizeL, h2]; try omega
termination_by q => reachSizeL q
decreasing_by all_goals (simp [reachSizeL]; try omega)

theorem forEachMutTrace_id_fst :
    ∀ q : List BookItem, (forEachMutTrace (fun x => x) q).1 = q
  | [] => by simp [forEachMutTrace]
  | .chapter n c num subs p pn :: rest => by
    have h1 := forEachMutTrace_id_fst subs
    have h2 := forEachMutTrace_id_fst rest
    simp [forEachMutTrace, h1, h2]
  | .virtualChapter n c num subs :: rest => by
    have h2 := forEachMutTrace_id_fst rest
    simp [forEachMutTrace, h2]
  | .separator :: rest => by
    have h2 := forEachMutTrace_id_fst rest
    simp [forEachMutTrace, h2]
termination_by q => reachSizeL q
decreasing_by all_goals (simp [reachSizeL]; try omega)

theorem forEachMutTrace_id_perm :
    ∀ q : List BookItem, (forEachMutTrace (fun x => x) q).2.Perm (preorderSpec q)
  | [] => by simp [forEachMutTrace, preorderSpec]
  | .chapter n c num subs p pn :: rest => by
    have h1 := forEachMutTrace_id_perm subs
    have h2 := forEachMutTrace_id_perm rest
    have hf := forEachMutTrace_id_fst subs
    simp only [forEachMutTrace, hf, preorderSpec]
    exact (h1.append (h2.cons _)).trans List.perm_middle
  | .virtualChapter n c num subs :: rest => by
    have h2 := forEachMutTrace_id_perm rest
    simp only [forEachMutTrace, preorderSpec]
    exact h2.cons _
  | .separator :: rest => by
    have h2 := forEachMutTrace_id_perm rest
    simp only [forEachMutTrace, preorderSpec]
    exact h2.cons _
termination_by q => reachSizeL q
decreasing_by all_goals (simp [reachSizeL]; try omega)

theorem forEachMutTrace_append (f : BookItem → BookItem) (a b : List BookItem) :
    forEachMutTrace f (a ++ b) =
      ((forEachMutTrace f a).1 ++ (forEachMutTrace f b).1,
       (forEachMutTrace f a).2 ++ (forEachMutTrace f b).2) := by
  induction a with
  | nil => simp [forEachMutTrace]
  | cons x rest ih => cases x <;> simp [forEachMutTrace, ih]

/-- C7 (counterexample): the depth-first iterator does not yield every book
item in the tree: a book holding one virtual chapter with one nested item
yields only the virtual chapter itself, while its tree has two items. -/
theorem claim_c7_counterexample :
    iterRun [.virtualChapter "V" "" none [.separator]] =
        [.virtualChapter "V" "" none [.separator]] ∧
      totalSizeL [.virtualChapter "V" "" none [.separator]] = 2 :=
  ⟨by rw [iterRun_eq_preorder]; simp [preorderSpec], by simp [totalSizeL]⟩

/-- C7 (amended): restricted to the items reachable through `Chapter`
children (items nested inside a `VirtualChapter`'s sub-items are not
traversed, see C10), the read-only iterator yields exactly the depth-first
pre-order — each item once, parent before children, children immediately
after their parent and before following siblings — and `for_each_mut`
invokes its callback exactly once per reachable item: the trace of callback
arguments has the pre-order's length for every callback, and for the
identity callback it is a permutation of the pre-order. -/
theorem claim_c7_amended (b : Book) (f : BookItem → BookItem) :
    bookIter b = preorderSpec b.sections ∧
      (forEachMutTrace f b.sections).2.length = (preorderSpec b.sections).length ∧
      ((forEachMutTrace (fun x => x) b.sections).2).Perm (preorderSpec b.sections) :=
  ⟨iterRun_eq_preorder b.sections,
   by rw [forEachMutTrace_length, preorderSpec_length],
   forEachMutTrace_id_perm b.sections⟩

/-- C10: neither traversal descends into a `VirtualChapter`'s sub-items:
wherever a virtual chapter occurs at the top level, the iterator's output
and the mutating visitor's callback trace are those of the surrounding
items with the virtual chapter itself inserted — independently of whatever
`subs` contains, so no item nested inside it is ever yielded or passed to
the callback. -/
theorem claim_c10_traversals_skip_virtual (n c : String) (num : Option (List Nat))
    (subs pre post : List BookItem) (f : BookItem → BookItem) :
    iterRun (pre ++ .virtualChapter n c num subs :: post) =
        iterRun pre ++ .virtualChapter n c num subs :: iterRun post ∧
      (forEachMutTrace f (pre ++ .virtualChapter n c num subs :: post)).2 =
        (forEachMutTrace f pre).2 ++
          .virtualChapter n c num subs :: (forEachMutTrace f post).2 := by
  constructor
  · rw [iterRun_eq_preorder, iterRun_eq_preorder, iterRun_eq_preorder,
      preorderSpec_append]
    simp [preorderSpec]
  · rw [forEachMutTrace_append]
    simp [forEachMutTrace]

theorem targetsOf_append (d : MPath) (a b : List SummaryItem) :
    targetsOf d (a ++ b) = targetsOf d a ++ targetsOf d b := by
  induction a with
  | nil => simp [targetsOf]
  | cons x rest ih => cases x <;> simp [targetsOf, ih]

theorem mem_targetsOf_reverse {d : MPath} {p : MPath} (l : List SummaryItem) :
    p ∈ targetsOf d l.reverse ↔ p ∈ targetsOf d l := by
  induction l with
  | nil => simp
  | cons x rest ih =>
    cases x <;> simp [targetsOf, List.reverse_cons, targetsOf_append, ih] <;> tauto

theorem createMissingGo_mono (d : MPath) :
    ∀ (st : List SummaryItem) (fs : FS) (p : MPath) (c : String),
      fsRead fs p = some c → fsRead (createMissingGo d fs st) p = some c
  | [], fs, p, c => by
    intro h; rw [createMissingGo]; exact h
  | .separator :: st, fs, p, c => by
    intro h; rw [createMissingGo]; exact createMissingGo_mono d st fs p c h
  | .link name loc num nested :: st, fs, p, c => by
    intro h
    rw [createMissingGo]
    apply createMissingGo_mono d (nested.reverse ++ st)
    by_cases hex : (fsRead fs (joinP d loc)).isSome
    · rw [if_pos hex]; exact h
    · rw [if_neg hex, fsRead]
      split
      · next heq =>
        exfalso
        rw [heq, h] at hex
        exact hex rfl
      · exact h
termination_by st => sizeSI st
decreasing_by all_goals (simp [sizeSI, sizeSI_append, sizeSI_reverse]; try omega)

theorem createMissingGo_complete (d : MPath) :
    ∀ (st : List SummaryItem) (fs : FS) (p : MPath),
      p ∈ targetsOf d st → (fsRead (createMissingGo d fs st) p).isSome
  | [], _, p => by
    intro hp
    simp [targetsOf] at hp
  | .separator :: st, fs, p => by
    intro hp
    rw [createMissingGo]
    exact createMissingGo_complete d st fs p (by simpa [targetsOf] using hp)
  | .link name loc num nested :: st, fs, p => by
    intro hp
    rw [createMissingGo]
    have hex2 :
        (fsRead (if (fsRead fs (joinP d loc)).isSome then fs
                 else (joinP d loc, "# " ++ name ++ "\n") :: fs) (joinP d loc)).isSome := by
      by_cases hex : (fsRead fs (joinP d loc)).isSome
      · rw [if_pos hex]; exact hex
      · rw [if_neg hex, fsRead, if_pos rfl]
        rfl
    rcases (by simpa [targetsOf] using hp :
        p = joinP d loc ∨ p ∈ targetsOf d nested ∨ p ∈ targetsOf d st) with h | h | h
    · subst h
      rcases Option.isSome_iff_exists.mp hex2 with ⟨c, hc⟩
      rw [createMissingGo_mono d _ _ _ _ hc]
      rfl
    · refine createMissingGo_complete d _ _ p ?_
      rw [targetsOf_append]
      exact List.mem_append_left _ ((mem_targetsOf_reverse nested).mpr h)
    · refine createMissingGo_complete d _ _ p ?_
      rw [targetsOf_append]
      exact List.mem_append_right _ h
termination_by st => sizeSI st
decreasing_by all_goals (simp [sizeSI, sizeSI_append, sizeSI_reverse]; try omega)

theorem createMissingGo_stable (d : MPath) :
    ∀ (st : List SummaryItem) (fs : FS),
      (∀ p ∈ targetsOf d st, (fsRead fs p).isSome) → createMissingGo d fs st = fs
  | [], fs => by intro _; rw [createMissingGo]
  | .separator :: st, fs => by
    intro hall
    rw [createMissingGo]
    exact createMissingGo_stable d st fs (fun p hp => hall p (by simp [targetsOf, hp]))
  | .link name loc num nested :: st, fs => by
    intro hall
    have hex : (fsRead fs (joinP d loc)).isSome :=
      hall _ (by simp [targetsOf])
    rw [createMissingGo]
    simp only [hex, if_true]
    exact createMissingGo_stable d _ fs (fun p hp => by
      rw [targetsOf_append] at hp
      rcases List.mem_append.mp hp with h | h
      · exact hall p (by simp [targetsOf, (mem_targetsOf_reverse nested).mp h])
      · exact hall p (by simp [targetsOf, h]))
termination_by st => sizeSI st
decreasing_by all_goals (simp [sizeSI, sizeSI_append, sizeSI_reverse]; try omega)

/-- C8: the missing-content pass never overwrites — every file present in
the content source keeps its contents — and it is idempotent: a second run
over the result of a first run changes nothing (in this pure model the pass
is total, so the second run trivially also reports no error). -/
theorem claim_c8_create_missing (d : MPath) (s : Summary) (fs : FS) :
    (∀ p c, fsRead fs p = some c → fsRead (createMissing d s fs) p = some c) ∧
      createMissing d s (createMissing d s fs) = createMissing d s fs := by
  constructor
  · intro p c h
    exact createMissingGo_mono d _ fs p c h
  · unfold createMissing
    apply createMissingGo_stable
    intro p hp
    apply createMissingGo_complete
    exact hp

/-- C8 (witness): with one link `A → a.md` and an existing file at
`src/a.md`, the pass keeps that file's contents. -/
theorem claim_c8_witness :
    fsRead (createMissing ⟨false, ["src"]⟩
        ⟨[], [.link "A" ⟨false, ["a.md"]⟩ none []], []⟩
        [(⟨false, ["src", "a.md"]⟩, "hi")]) ⟨false, ["src", "a.md"]⟩ = some "hi" :=
  (claim_c8_create_missing ⟨false, ["src"]⟩
      ⟨[], [.link "A" ⟨false, ["a.md"]⟩ none []], []⟩
      [(⟨false, ["src", "a.md"]⟩, "hi")]).1 _ "hi" (by rfl)

theorem loadItems_ok (fs : FS) (d : MPath) :
    ∀ (its : List SummaryItem) (parents : List String),
      resolvableb fs d its = true →
      ∃ bs, loadItems fs d its parents = .ok bs ∧ List.Forall₂ itemMatch its bs
  | [], parents => by
    intro _
    exact ⟨[], by rw [loadItems], List.Forall₂.nil⟩
  | .separator :: rest, parents => by
    intro h
    have hrest : resolvableb fs d rest = true := by
      simpa [resolvableb] using h
    obtain ⟨bs, hok, hm⟩ := loadItems_ok fs d rest parents hrest
    refine ⟨.separator :: bs, ?_, List.Forall₂.cons trivial hm⟩
    rw [loadItems, hok]
  | .link n loc num nested :: rest, parents => by
    intro h
    rw [resolvableb] at h
    simp only [Bool.and_eq_true] at h
    obtain ⟨⟨⟨hread, hstrip⟩, hnested⟩, hrest⟩ := h
    obtain ⟨content, hc⟩ := Option.isSome_iff_exists.mp hread
    obtain ⟨stripped, hs⟩ := Option.isSome_iff_exists.mp hstrip
    obtain ⟨subs, hok1, _⟩ := loadItems_ok fs d nested (parents ++ [n]) hnested
    obtain ⟨bs, hok2, hm⟩ := loadItems_ok fs d rest parents hrest
    refine ⟨.chapter n content num subs stripped parents :: bs, ?_,
      List.Forall₂.cons ⟨rfl, rfl⟩ hm⟩
    rw [loadItems, hc, hs, hok1, hok2]
termination_by its => sizeSI its
decreasing_by all_goals (simp [sizeSI]; try omega)

/-- C1 (counterexample): a summary whose single link is an absolute path
that is present in the content source but does not lie under the content
root makes resolution panic (the Rust `strip_prefix(..).expect("Chapters
are always inside a book")`), so resolving does not yield a Book even
though every referenced file is present. -/
theorem claim_c1_counterexample :
    loadBookFromDisk ⟨[], [.link "X" ⟨true, ["a.md"]⟩ none []], []⟩
        ⟨true, ["book", "src"]⟩ [(⟨true, ["a.md"]⟩, "hi")] = .error .panic := by
  rw [loadBookFromDisk]
  simp [loadItems, fsRead, stripPre, joinP]

/-- C1 (amended): for every outline and every content source in which every
referenced file is readable and lies under the content root (relative
targets are joined to the root, so the proviso only restricts absolute
targets), resolution succeeds, and the Book's top-level sequence
corresponds one-to-one, in order — front-matter, then numbered, then
back-matter items, each group in declaration order — with the outline's
top-level items: a separator maps to a Separator and a link to a Chapter
carrying the link's name and number. -/
theorem claim_c1_amended (s : Summary) (d : MPath) (fs : FS)
    (h : resolvableb fs d
        (s.prefixChapters ++ s.numberedChapters ++ s.suffixChapters) = true) :
    ∃ b : Book, loadBookFromDisk s d fs = .ok b ∧
      b.sections.length =
        (s.prefixChapters ++ s.numberedChapters ++ s.suffixChapters).length ∧
      List.Forall₂ itemMatch
        (s.prefixChapters ++ s.numberedChapters ++ s.suffixChapters) b.sections := by
  obtain ⟨bs, hok, hm⟩ := loadItems_ok fs d _ [] h
  refine ⟨⟨bs⟩, ?_, (hm.length_eq).symm, hm⟩
  rw [loadBookFromDisk, hok]

/-- C1 (witness): a one-chapter summary against a content source holding
the file resolves to a matching book. -/
theorem claim_c1_witness :
    ∃ b : Book,
      loadBookFromDisk ⟨[], [.link "A" ⟨false, ["a.md"]⟩ none []], []⟩
          ⟨true, ["src"]⟩ [(⟨true, ["src", "a.md"]⟩, "hi")] = .ok b ∧
        b.sections.length = ([] ++ [SummaryItem.link "A" ⟨false, ["a.md"]⟩ none []] ++ []).length ∧
        List.Forall₂ itemMatch
          ([] ++ [SummaryItem.link "A" ⟨false, ["a.md"]⟩ none []] ++ []) b.sections :=
  claim_c1_amended ⟨[], [.link "A" ⟨false, ["a.md"]⟩ none []], []⟩
    ⟨true, ["src"]⟩ [(⟨true, ["src", "a.md"]⟩, "hi")]
    (by simp [resolvableb, fsRead, joinP, stripPre, List.isPrefixOf])

theorem parseLevel_sentinel :
    ∀ (fuel : Nat) (lines : List String) (cur : Nat) (sec : List Int)
      (items res : List LBookItem) (left : List String),
      sec.head? = some (-1) →
      (∀ it, items.getLast? = some it → isChap it = false) →
      parseLevel fuel lines cur sec items = .ok (res, left) →
      ∃ extra, res = items ++ extra ∧ ∀ it ∈ extra, isChap it = false := by
  intro fuel
  induction fuel with
  | zero => intro lines cur sec items res left _ _ h; exact absurd h (by simp [parseLevel])
  | succ n ih =>
    intro lines cur sec items res left hsec hlast h
    match lines with
    | [] =>
      rw [parseLevel] at h
      obtain ⟨rfl, rfl⟩ : items = res ∧ ([] : List String) = left := by
        simpa using h
      exact ⟨[], by simp, by simp⟩
    | line :: rest =>
      rw [parseLevel] at h
      match hlv : level line 4 with
      | .error e => rw [hlv] at h; simp at h
      | .ok lvl =>
        rw [hlv] at h
        simp only at h
        by_cases h1 : lvl < cur
        · rw [if_pos h1] at h
          obtain ⟨rfl, rfl⟩ : items = res ∧ line :: rest = left := by simpa using h
          exact ⟨[], by simp, by simp⟩
        · rw [if_neg h1] at h
          by_cases h2 : lvl > cur
          · rw [if_pos h2] at h
            match hgl : items.getLast? with
            | none => rw [hgl] at h; simp at h
            | some (.chapter s nm p its) =>
              have := hlast _ hgl
              simp [isChap] at this
            | some (.affix nm p its) => rw [hgl] at h; simp at h
            | some .spacer => rw [hgl] at h; simp at h
          · rw [if_neg h2] at h
            match hpl : parseLine line with
            | none =>
              rw [hpl] at h
              dsimp only [] at h
              exact ih rest cur sec items res left hsec hlast h
            | some .spacer =>
              rw [hpl] at h
              dsimp only [] at h
              by_cases hc : cur > 0
              · rw [if_pos hc] at h; simp at h
              · rw [if_neg hc] at h
                obtain ⟨extra, rfl, hex⟩ :=
                  ih rest cur sec (items ++ [.spacer]) res left hsec
                    (by intro it hit; simp [List.getLast?_concat] at hit;
                        subst hit; simp [isChap]) h
                refine ⟨.spacer :: extra, by simp, ?_⟩
                intro it hit
                rcases List.mem_cons.mp hit with rfl | hit
                · simp [isChap]
                · exact hex it hit
            | some (.affix nm p its) =>
              rw [hpl] at h
              dsimp only [] at h
              by_cases hc : cur > 0
              · rw [if_pos hc] at h; simp at h
              · rw [if_neg hc] at h
                cases sec with
                | nil => simp at hsec
                | cons s0 srest =>
                  have hs0 : s0 = -1 := by simpa using hsec
                  subst hs0
                  dsimp only [] at h
                  rw [if_neg (by norm_num : ¬ ((-1 : Int) > 0))] at h
                  obtain ⟨extra, rfl, hex⟩ :=
                    ih rest cur (-1 :: srest) (items ++ [.affix nm p its]) res left
                      (by simp)
                      (by intro it hit; simp [List.getLast?_concat] at hit;
                          subst hit; simp [isChap]) h
                  refine ⟨.affix nm p its :: extra, by simp, ?_⟩
                  intro it hit
                  rcases List.mem_cons.mp hit with rfl | hit
                  · simp [isChap]
                  · exact hex it hit
            | some (.chapter s nm p its) =>
              rw [hpl] at h
              dsimp only [] at h
              cases sec with
              | nil => simp at hsec
              | cons s0 srest =>
                have hs0 : s0 = -1 := by simpa using hsec
                subst hs0
                dsimp only [] at h
                rw [if_pos rfl] at h
                simp at h

theorem nchap_append (a b : List LBookItem) : nchap (a ++ b) = nchap a + nchap b := by
  simp [nchap, List.filter_append]

theorem nchap_chapter (s nm p : String) (its : List LBookItem) :
    nchap [.chapter s nm p its] = 1 := by
  simp [nchap, isChap]

theorem nchap_nonchap {x : LBookItem} (hx : isChap x = false) : nchap [x] = 0 := by
  simp [nchap, hx]

theorem goodb_nochap (ys : List LBookItem) (hys : ∀ y ∈ ys, isChap y = false) :
    ∀ pre k, goodb pre k ys = true := by
  induction ys with
  | nil => intro pre k; rw [goodb]
  | cons y rest ih =>
    intro pre k
    match y with
    | .chapter s nm p its =>
      have := hys _ (List.mem_cons_self _ _)
      simp [isChap] at this
    | .affix nm p its =>
      rw [goodb]
      exact ih (fun y hy => hys y (List.mem_cons_of_mem _ hy)) pre k
    | .spacer =>
      rw [goodb]
      exact ih (fun y hy => hys y (List.mem_cons_of_mem _ hy)) pre k

theorem goodb_append_nochap {xs ys : List LBookItem} {pre : List Int} {k : Int}
    (hxs : goodb pre k xs = true) (hys : ∀ y ∈ ys, isChap y = false) :
    goodb pre k (xs ++ ys) = true := by
  induction xs generalizing k with
  | nil => exact goodb_nochap ys hys pre k
  | cons x rest ih =>
    match x with
    | .chapter s nm p its =>
      rw [goodb] at hxs
      simp only [Bool.and_eq_true] at hxs
      obtain ⟨⟨hh1, hh2⟩, hh3⟩ := hxs
      rw [List.cons_append, goodb]
      simp only [Bool.and_eq_true]
      exact ⟨⟨hh1, hh2⟩, ih hh3⟩
    | .affix nm p its =>
      rw [goodb] at hxs
      rw [List.cons_append, goodb]
      exact ih hxs
    | .spacer =>
      rw [goodb] at hxs
      rw [List.cons_append, goodb]
      exact ih hxs

theorem goodb_concat_chapter (init : List LBookItem) (s nm p : String)
    (its : List LBookItem) :
    ∀ (pre : List Int) (k : Int),
      goodb pre k (init ++ [.chapter s nm p its]) = true ↔
        goodb pre k init = true ∧
          s = render (pre ++ [k + (nchap init : Int) + 1]) ∧
          goodb (pre ++ [k + (nchap init : Int) + 1]) 0 its = true := by
  induction init with
  | nil =>
    intro pre k
    simp only [List.nil_append, goodb, nchap, List.filter_nil, List.length_nil,
      Nat.cast_zero, add_zero, Bool.and_eq_true, decide_eq_true_eq]
    tauto
  | cons x rest ih =>
    intro pre k
    match x with
    | .chapter s' nm' p' its' =>
      rw [List.cons_append, goodb, goodb]
      have hcount : nchap (LBookItem.chapter s' nm' p' its' :: rest) = nchap rest + 1 := by
        simp [nchap, isChap]
      rw [hcount]
      simp only [Bool.and_eq_true, ih pre (k + 1)]
      have harith : k + 1 + (nchap rest : Int) + 1 = k + ((nchap rest + 1 : Nat) : Int) + 1 := by
        push_cast; ring
      rw [harith]
      tauto
    | .affix nm' p' its' =>
      rw [List.cons_append, goodb, goodb]
      rw [ih pre k]
      have : nchap (LBookItem.affix nm' p' its' :: rest) = nchap rest := by
        simp [nchap, isChap]
      rw [this]
    | .spacer =>
      rw [List.cons_append, goodb, goodb]
      rw [ih pre k]
      have : nchap (LBookItem.spacer :: rest) = nchap rest := by
        simp [nchap, isChap]
      rw [this]

theorem nabSt_append (xs ys : List LBookItem) :
    ∀ s c, nabSt s c (xs ++ ys) = nabSt (nabSt s c xs).1 (nabSt s c xs).2 ys := by
  induction xs with
  | nil => intro s c; simp [nabSt]
  | cons x rest ih =>
    intro s c
    match x with
    | .chapter s' nm p its => rw [List.cons_append, nabSt, nabSt]; exact ih _ _
    | .affix nm p its => rw [List.cons_append, nabSt, nabSt]; exact ih _ _
    | .spacer => rw [List.cons_append, nabSt, nabSt]; exact ih _ _

theorem nab_append (xs ys : List LBookItem) :
    ∀ s c, nab s c (xs ++ ys) =
      (nab s c xs && nab (nabSt s c xs).1 (nabSt s c xs).2 ys) := by
  induction xs with
  | nil => intro s c; rw [nab, nabSt]; simp
  | cons x rest ih =>
    intro s c
    match x with
    | .chapter s' nm p its =>
      rw [List.cons_append, nab, nab, nabSt]
      rw [ih]
      cases c <;> simp
    | .affix nm p its =>
      rw [List.cons_append, nab, nab, nabSt]
      exact ih _ _
    | .spacer =>
      rw [List.cons_append, nab, nab, nabSt]
      exact ih _ _

theorem nabSt_fst (l : List LBookItem) :
    ∀ s c, (nabSt s c l).1 = (s || decide (0 < nchap l)) := by
  induction l with
  | nil => intro s c; simp [nabSt, nchap]
  | cons x rest ih =>
    intro s c
    match x with
    | .chapter s' nm p its =>
      rw [nabSt, ih]
      have : nchap (LBookItem.chapter s' nm p its :: rest) = nchap rest + 1 := by
        simp [nchap, isChap]
      simp [this]
    | .affix nm p its =>
      rw [nabSt, ih]
      have : nchap (LBookItem.affix nm p its :: rest) = nchap rest := by
        simp [nchap, isChap]
      simp [this]
    | .spacer =>
      rw [nabSt, ih]
      have : nchap (LBookItem.spacer :: rest) = nchap rest := by
        simp [nchap, isChap]
      simp [this]

theorem nab_nochap (ys : List LBookItem) (hys : ∀ y ∈ ys, isChap y = false) :
    ∀ s c, nab s c ys = true := by
  induction ys with
  | nil => intro s c; rw [nab]
  | cons y rest ih =>
    intro s c
    match y with
    | .chapter s' nm p its =>
      have := hys _ (List.mem_cons_self _ _)
      simp [isChap] at this
    | .affix nm p its =>
      rw [nab]
      exact ih (fun y hy => hys y (List.mem_cons_of_mem _ hy)) _ _
    | .spacer =>
      rw [nab]
      exact ih (fun y hy => hys y (List.mem_cons_of_mem _ hy)) _ _

theorem incLast_concat (pre : List Int) (c : Int) :
    incLast (pre ++ [c]) = pre ++ [c + 1] := by
  simp [incLast]

theorem parseLine_chapter {l : String} {s nm p : String} {its : List LBookItem}
    (h : parseLine l = some (.chapter s nm p its)) : its = [] := by
  unfold parseLine at h
  dsimp only [] at h
  repeat' split at h
  all_goals simp_all

theorem nab_concat_chapter (init : List LBookItem) (a b d : String)
    (e : List LBookItem) (s c : Bool) :
    nab s c (init ++ [.chapter a b d e]) =
      (nab s c init && !(nabSt s c init).2) := by
  rw [nab_append]
  simp [nab]

theorem nabSt_concat_chapter (init : List LBookItem) (a b d : String)
    (e : List LBookItem) (s c : Bool) :
    nabSt s c (init ++ [.chapter a b d e]) = (true, (nabSt s c init).2) := by
  rw [nabSt_append]
  simp [nabSt]

theorem nab_concat_affix (init : List LBookItem) (a b : String)
    (e : List LBookItem) (s c : Bool) :
    nab s c (init ++ [.affix a b e]) = nab s c init := by
  rw [nab_append]
  simp [nab]

theorem nabSt_concat_affix (init : List LBookItem) (a b : String)
    (e : List LBookItem) (s c : Bool) :
    nabSt s c (init ++ [.affix a b e]) =
      ((nabSt s c init).1, (nabSt s c init).2 || (nabSt s c init).1) := by
  rw [nabSt_append]
  simp [nabSt]

theorem nab_concat_spacer (init : List LBookItem) (s c : Bool) :
    nab s c (init ++ [.spacer]) = nab s c init := by
  rw [nab_append]
  simp [nab]

theorem nabSt_concat_spacer (init : List LBookItem) (s c : Bool) :
    nabSt s c (init ++ [.spacer]) = nabSt s c init := by
  rw [nabSt_append]
  simp [nabSt]

theorem parseLevel_good :
    ∀ (fuel : Nat) (lines : List String) (cur : Nat) (pre : List Int) (c : Int)
      (items res : List LBookItem) (left : List String),
      parseLevel fuel lines cur (pre ++ [c]) items = .ok (res, left) →
      (cur = 0 → pre = []) →
      goodb pre 0 items = true →
      c = (nchap items : Int) →
      nab false false items = true →
      (nabSt false false items).2 = false →
      goodb pre 0 res = true ∧ nab false false res = true := by
  intro fuel
  induction fuel with
  | zero =>
    intro lines cur pre c items res left h
    exact absurd h (by simp [parseLevel])
  | succ n ih =>
    intro lines cur pre c items res left h hc0 hgood hc hnab hst
    match lines with
    | [] =>
      rw [parseLevel] at h
      obtain ⟨rfl, rfl⟩ : items = res ∧ ([] : List String) = left := by simpa using h
      exact ⟨hgood, hnab⟩
    | line :: rest =>
      rw [parseLevel] at h
      match hlv : level line 4 with
      | .error e => rw [hlv] at h; simp at h
      | .ok lvl =>
        rw [hlv] at h
        simp only at h
        by_cases h1 : lvl < cur
        · rw [if_pos h1] at h
          obtain ⟨rfl, rfl⟩ : items = res ∧ line :: rest = left := by simpa using h
          exact ⟨hgood, hnab⟩
        · rw [if_neg h1] at h
          by_cases h2 : lvl > cur
          · rw [if_pos h2] at h
            match hgl : items.getLast? with
            | none => rw [hgl] at h; simp at h
            | some (.affix nm p its0) => rw [hgl] at h; simp at h
            | some .spacer => rw [hgl] at h; simp at h
            | some (.chapter s' nm p its0) =>
              rw [hgl] at h
              dsimp only [] at h
              match hrec : parseLevel n (line :: rest) lvl (pre ++ [c] ++ [0]) [] with
              | .error e => rw [hrec] at h; simp at h
              | .ok (children, rest') =>
                rw [hrec] at h
                dsimp only [] at h
                obtain ⟨hgc, _⟩ := ih (line :: rest) lvl (pre ++ [c]) 0 [] children rest' hrec
                  (fun h0 => (Nat.not_lt_zero cur (h0 ▸ h2)).elim)
                  (by rw [goodb]) (by simp [nchap]) (by rw [nab]) (by simp [nabSt])
                have hitems : items.dropLast ++ [LBookItem.chapter s' nm p its0] = items :=
                  List.dropLast_append_getLast? _ (Option.mem_def.mpr hgl)
                have hgood' := hgood
                rw [← hitems, goodb_concat_chapter] at hgood'
                obtain ⟨hginit, hsv, _⟩ := hgood'
                have hcnt : nchap items = nchap items.dropLast + 1 := by
                  conv_lhs => rw [← hitems]
                  rw [nchap_append, nchap_chapter]
                refine ih rest' cur pre c
                  (items.dropLast ++ [.chapter s' nm p children]) res left h hc0 ?_ ?_ ?_ ?_
                · rw [goodb_concat_chapter]
                  refine ⟨hginit, hsv, ?_⟩
                  have heq : (0 : Int) + (nchap items.dropLast : Int) + 1 = c := by
                    rw [hc, hcnt]; push_cast; ring
                  rw [heq]
                  exact hgc
                · rw [nchap_append, nchap_chapter, ← hcnt]
                  exact hc
                · rw [nab_concat_chapter]
                  have h1' := hnab
                  rw [← hitems, nab_concat_chapter] at h1'
                  exact h1'
                · rw [nabSt_concat_chapter]
                  have h1' := hst
                  rw [← hitems, nabSt_concat_chapter] at h1'
                  simpa using h1'
          · rw [if_neg h2] at h
            match hpl : parseLine line with
            | none =>
              rw [hpl] at h
              dsimp only [] at h
              exact ih rest cur pre c items res left h hc0 hgood hc hnab hst
            | some .spacer =>
              rw [hpl] at h
              dsimp only [] at h
              by_cases hcpos : cur > 0
              · rw [if_pos hcpos] at h; simp at h
              · rw [if_neg hcpos] at h
                refine ih rest cur pre c (items ++ [.spacer]) res left h hc0 ?_ ?_ ?_ ?_
                · exact goodb_append_nochap hgood
                    (by intro y hy; simp at hy; subst hy; simp [isChap])
                · rw [nchap_append, nchap_nonchap (by simp [isChap])]
                  simpa using hc
                · rw [nab_concat_spacer]; exact hnab
                · rw [nabSt_concat_spacer]; exact hst
            | some (.affix nm p its) =>
              rw [hpl] at h
              dsimp only [] at h
              by_cases hcpos : cur > 0
              · rw [if_pos hcpos] at h; simp at h
              · rw [if_neg hcpos] at h
                have hpre : pre = [] := hc0 (by omega)
                subst hpre
                simp only [List.nil_append] at h ⊢
                try dsimp only [] at h
                by_cases hcp : c > 0
                · rw [if_pos hcp] at h
                  obtain ⟨extra, hres, hex⟩ :=
                    parseLevel_sentinel n rest cur [-1] (items ++ [.affix nm p its])
                      res left (by simp)
                      (by intro it hit; rw [List.getLast?_concat] at hit;
                          obtain rfl := Option.some.inj hit; simp [isChap]) h
                  subst hres
                  constructor
                  · rw [List.append_assoc]
                    refine goodb_append_nochap hgood ?_
                    intro y hy
                    rcases List.mem_cons.mp hy with rfl | hy
                    · simp [isChap]
                    · exact hex y hy
                  · rw [List.append_assoc, nab_append, hnab]
                    simp only [Bool.true_and, List.singleton_append]
                    rw [nab]
                    exact nab_nochap extra hex _ _
                · rw [if_neg hcp] at h
                  have hchap0 : nchap items = 0 := by
                    have : (nchap items : Int) = 0 := by omega
                    exact_mod_cast this
                  refine ih rest cur [] c (items ++ [.affix nm p its]) res left ?_
                    (fun _ => rfl) ?_ ?_ ?_ ?_
                  · simpa using h
                  · exact goodb_append_nochap hgood
                      (by intro y hy; simp at hy; subst hy; simp [isChap])
                  · rw [nchap_append, nchap_nonchap (by simp [isChap])]
                    simpa using hc
                  · rw [nab_concat_affix]; exact hnab
                  · rw [nabSt_concat_affix]
                    rw [hst, nabSt_fst, hchap0]
                    simp
            | some (.chapter s' nm p its) =>
              rw [hpl] at h
              dsimp only [] at h
              have hits : its = [] := parseLine_chapter hpl
              subst hits
              obtain ⟨s0, srest, hps⟩ : ∃ s0 srest, pre ++ [c] = s0 :: srest := by
                cases pre with
                | nil => exact ⟨c, [], rfl⟩
                | cons a t => exact ⟨a, t ++ [c], rfl⟩
              rw [hps] at h
              dsimp only [] at h
              by_cases hs0 : s0 = -1
              · rw [if_pos hs0] at h; simp at h
              · rw [if_neg hs0] at h
                rw [← hps, incLast_concat] at h
                refine ih rest cur pre (c + 1)
                  (items ++ [.chapter (render (pre ++ [c + 1])) nm p []]) res left h
                  hc0 ?_ ?_ ?_ ?_
                · rw [goodb_concat_chapter]
                  refine ⟨hgood, ?_, by rw [goodb]⟩
                  rw [show (0 : Int) + (nchap items : Int) + 1 = c + 1 by rw [hc]; ring]
                · rw [nchap_append, nchap_chapter]
                  rw [hc]
                  push_cast
                  ring
                · rw [nab_concat_chapter, hnab, hst]
                  rfl
                · rw [nabSt_concat_chapter]
                  simpa using hst

/-- C2: for every outline the parser accepts from its root call (level 0,
one zero counter, empty accumulator), the resulting tree satisfies the
section-numbering invariant `goodb`: under any parent, the numbered
chapters carry, in declaration order, the parent's counter path extended by
one final component taking the values 1, 2, 3, …, rendered with a dot after
every component — so siblings share their parent's prefix and strictly
increase by one in their final component. -/
theorem claim_c2_section_numbers (fuel : Nat) (lines : List String)
    (res : List LBookItem) (left : List String)
    (h : parseLevel fuel lines 0 [0] [] = .ok (res, left)) :
    goodb [] 0 res = true :=
  (parseLevel_good fuel lines 0 [] 0 [] res left h (fun _ => rfl)
    (by rw [goodb]) (by simp [nchap]) (by rw [nab]) (by simp [nabSt])).1

/-- C2 (witness): the invariant evaluated on the concrete parse of a
three-chapter outline. -/
theorem claim_c2_witness :
    goodb [] 0 [.chapter "1." "A" "a.md" [.chapter "1.1." "B" "b.md" []],
                .chapter "2." "C" "c.md" []] = true :=
  claim_c2_section_numbers 10 ["- [A](a.md)", "    - [B](b.md)", "- [C](c.md)"]
    [.chapter "1." "A" "a.md" [.chapter "1.1." "B" "b.md" []],
     .chapter "2." "C" "c.md" []] [] (by rfl)

/-- C4: once the back-matter sentinel is set (first counter `-1`), a
root-level numbered line fails the whole parse with a `StructureError`
(first conjunct); and consequently every outline the parser accepts from
its root call yields a tree passing the `nab` scan: no numbered chapter
occurs after an affix entry that itself followed a numbered chapter
(second conjunct). -/
theorem claim_c4_no_chapter_after_backmatter :
    (∀ (fuel : Nat) (line : String) (rest : List String) (srest : List Int)
       (items : List LBookItem) (s' nm p : String) (its : List LBookItem),
       level line 4 = .ok 0 →
       parseLine line = some (.chapter s' nm p its) →
       parseLevel (fuel + 1) (line :: rest) 0 (-1 :: srest) items =
         .error .structureErr) ∧
    (∀ (fuel : Nat) (lines : List String) (res : List LBookItem) (left : List String),
       parseLevel fuel lines 0 [0] [] = .ok (res, left) →
       nab false false res = true) := by
  constructor
  · intro fuel line rest srest items s' nm p its hlv hpl
    conv_lhs => rw [parseLevel]
    rw [hlv]
    simp [hpl]
  · intro fuel lines res left h
    exact (parseLevel_good fuel lines 0 [] 0 [] res left h (fun _ => rfl)
      (by rw [goodb]) (by simp [nchap]) (by rw [nab]) (by simp [nabSt])).2

/-- C4 (witness): a numbered line under the sentinel fails concretely, and
the scan holds on a concrete accepted parse. -/
theorem claim_c4_witness :
    parseLevel 5 ["- [C](c.md)"] 0 [-1] [] = .error .structureErr ∧
      nab false false [.chapter "1." "A" "a.md" []] = true :=
  ⟨claim_c4_no_chapter_after_backmatter.1 4 "- [C](c.md)" [] [] [] "0" "C" "c.md" []
      (by rfl) (by rfl),
   claim_c4_no_chapter_after_backmatter.2 10 ["- [A](a.md)"]
      [.chapter "1." "A" "a.md" []] [] (by rfl)⟩

end MdBook
